import Mathlib

/-!
# Verification of the `huffman-challenge` repository

Shallow embedding of `src/huffman_tree.rs`, including the `HuffmanCode`
struct whose codec methods are unimplemented placeholders in the source
(they return empty values and are embedded exactly as written), together
with proofs and refutations of the properties the specification states
(C1-C10 below).

Modelling conventions:
* Rust `i32` counts/weights are modelled as `Int` (the specification's
  precondition restricts counts to positive integers far from overflow,
  and no claim concerns wrap-around behaviour).
* Rust `char` is Lean `Char` (both are Unicode scalar values).
* `HashMap<char, _>` values are modelled as association lists
  (`List (Char × _)`); where a claim depends on the *iteration order* of a
  `HashMap` the list order is exactly that iteration order, which is what
  `build_tree`'s `for` loop consumes.
* `std::collections::BinaryHeap<Reverse<HuffmanTree>>` is modelled
  faithfully: a `Vec`-backed binary max-heap over `Reverse`-wrapped trees,
  i.e. a min-heap on the root weight, with the standard library's exact
  `sift_up` / `sift_down_to_bottom` mechanics (so tie-breaking among equal
  weights behaves exactly as in the Rust code).  Recursion is fuelled so
  that every definition evaluates inside the kernel; each wrapper supplies
  fuel that is provably sufficient (the fuel-exhausted branches are
  unreachable for the wrappers' arguments).
* A Rust `panic!` is modelled as `Except.error (.panicked msg)`.
-/

namespace Huffman

/-- The `Node` enum of `huffman_tree.rs`: a leaf holds a symbol and its
frequency count, an internal node holds two children and a cached weight
(the cached field is stored, not recomputed, exactly as in the source). -/
inductive Node where
  | leaf (value : Char) (count : Int)
  | internal (left : Node) (right : Node) (weight : Int)
deriving DecidableEq, Repr

/-- `Node::weight`: the count of a leaf, or the cached weight of an
internal node. -/
def Node.weight : Node → Int
  | .leaf _ c => c
  | .internal _ _ w => w

/-- Default element used for out-of-range list indexing in the heap model
(never actually read at the indices the heap code touches). -/
def dNode : Node := .leaf 'a' 0

/-- Swap the elements at positions `i` and `j` of the backing vector. -/
def lswap (l : List Node) (i j : Nat) : List Node :=
  (l.set i (l.getD j dNode)).set j (l.getD i dNode)

/-- `BinaryHeap::sift_up` (with `start = 0`) on `Reverse<HuffmanTree>`
elements: the element at `pos` bubbles towards the root while its weight is
strictly smaller than its parent's.  Fuel `pos` suffices since the position
strictly decreases. -/
def sift_up : Nat → List Node → Nat → List Node
  | 0, l, _ => l
  | fuel+1, l, pos =>
    if 0 < pos then
      let parent := (pos - 1) / 2
      if (l.getD pos dNode).weight < (l.getD parent dNode).weight then
        sift_up fuel (lswap l pos parent) parent
      else l
    else l

/-- `BinaryHeap::push`: append the element and sift it up from the last
position. -/
def push (l : List Node) (x : Node) : List Node :=
  sift_up l.length (l ++ [x]) l.length

/-- The descending phase of `BinaryHeap::sift_down_to_bottom`: move the
hole at `pos` down to the bottom of the heap, always stepping to the child
with the smaller weight (the right child on ties, as in the standard
library's `<=` comparison on `Reverse` elements), and return the final
position.  Fuel `l.length` suffices since the position strictly
increases. -/
def sift_down_loop : Nat → List Node → Nat → List Node × Nat
  | 0, l, pos => (l, pos)
  | fuel+1, l, pos =>
    let child := 2 * pos + 1
    if child + 1 < l.length then
      let c := if (l.getD (child + 1) dNode).weight ≤ (l.getD child dNode).weight
               then child + 1 else child
      sift_down_loop fuel (lswap l pos c) c
    else if child + 1 = l.length then
      (lswap l pos child, child)
    else (l, pos)

/-- `BinaryHeap::sift_down_to_bottom` at position `0`: take the hole to the
bottom, then sift the displaced element back up. -/
def sift_down_to_bottom (l : List Node) : List Node :=
  let p := sift_down_loop l.length l 0
  sift_up p.2 p.1 p.2

/-- `BinaryHeap::pop`: remove and return the minimum-weight element (the
root), refill the root with the last element and restore the heap shape. -/
def pop (l : List Node) : Option (Node × List Node) :=
  match l with
  | [] => none
  | x :: xs =>
    let item := (x :: xs).getLast (List.cons_ne_nil x xs)
    match (x :: xs).dropLast with
    | [] => some (item, [])
    | y :: ys => some (y, sift_down_to_bottom ((y :: ys).set 0 item))

/-- The leaf symbols of a tree, in left-to-right order. -/
def leaves : Node → List Char
  | .leaf v _ => [v]
  | .internal a b _ => leaves a ++ leaves b

/-- The weight invariant, checked recursively: every internal node's cached
weight equals the sum of its children's weights. -/
def wf_node : Node → Bool
  | .leaf _ _ => true
  | .internal a b w => (w == a.weight + b.weight) && wf_node a && wf_node b

/-- Failure values.  The constructors before `panicked` are modelled from
the spec's error taxonomy (§7: `EmptyAlphabet`, `UnknownSymbol`,
`TruncatedStream`, `CorruptStream`, `MalformedSerialization`); `panicked`
models a Rust `panic` carrying its message, which is how the source code
actually fails. -/
inductive HuffFailure where
  | emptyAlphabet
  | unknownSymbol (c : Char)
  | truncatedStream
  | corruptStream
  | malformedSerialization
  | panicked (msg : String)
deriving DecidableEq, Repr

/-- The `HuffmanTree` struct: a boxed root node. -/
structure HuffmanTree where
  root : Node
deriving DecidableEq, Repr

/-- `HuffmanTree::new_leaf`. -/
def new_leaf (value : Char) (count : Int) : HuffmanTree :=
  ⟨.leaf value count⟩

/-- `HuffmanTree::new_internal`: the cached weight is the sum of the two
children's weights, computed once at construction. -/
def new_internal (l r : Node) : HuffmanTree :=
  ⟨.internal l r (l.weight + r.weight)⟩

/-- `HuffmanTree::weight`. -/
def HuffmanTree.weight (t : HuffmanTree) : Int := t.root.weight

/-- The `while heap.len() > 1` loop of `build_tree`: pop the two
lowest-weight trees, combine them, push the combination back.  One
iteration shrinks the heap by one element, so fuel `l.length` suffices;
the fuel-exhausted branch returns the heap unchanged, which coincides with
the loop's exit (the loop only stops with `l.length ≤ 1`, and fuel
`l.length` can only run out once `l.length = 0`). -/
def build_loop : Nat → List Node → Except HuffFailure (List Node)
  | 0, l => .ok l
  | fuel+1, l =>
    if 1 < l.length then
      match pop l with
      | some (left, l1) =>
        match pop l1 with
        | some (right, l2) =>
            build_loop fuel (push l2 (new_internal left right).root)
        | none => .error (.panicked "Heap should contain at least two elements")
      | none => .error (.panicked "Heap should contain at least two elements")
    else .ok l

/-- `HuffmanTree::build_tree`.  The input list is the sequence of
`(symbol, count)` pairs in the order the `for` loop receives them from the
`HashMap` iterator.  The final `pop` of an empty heap is the
`panic!("Heap should not be empty")` of the source. -/
def build_tree (frequencies : List (Char × Int)) : Except HuffFailure HuffmanTree :=
  let heap := frequencies.foldl (fun h p => push h (new_leaf p.1 p.2).root) []
  match build_loop heap.length heap with
  | .ok final =>
    match pop final with
    | some (t, _) => .ok ⟨t⟩
    | none => .error (.panicked "Heap should not be empty")
  | .error e => .error e

/-- `HuffmanTree::walk_through_tree`: collect, for every leaf, the
root-to-leaf path (`false` = left, `true` = right).  The Rust code inserts
into a `HashMap`; we keep the entries as a list in traversal order (for
trees whose leaf symbols are distinct — the only trees the builder
produces — the two representations carry the same mapping). -/
def walk_through_tree : Node → List Bool → List (Char × List Bool)
  | .leaf v _, path => [(v, path)]
  | .internal l r _, path =>
      walk_through_tree l (path ++ [false]) ++ walk_through_tree r (path ++ [true])

/-- `HuffmanTree::build_encoding_table`. -/
def build_encoding_table (t : HuffmanTree) : List (Char × List Bool) :=
  walk_through_tree t.root []

/-- `impl PartialEq for HuffmanTree`: equality compares root weights only. -/
def HuffmanTree.eq (t1 t2 : HuffmanTree) : Bool :=
  t1.weight == t2.weight

/-- `impl Ord for HuffmanTree`: comparison compares root weights only. -/
def HuffmanTree.cmp (t1 t2 : HuffmanTree) : Ordering :=
  compare t1.weight t2.weight

/-- The strict `<` derived from the `Ord` impl. -/
def HuffmanTree.lt (t1 t2 : HuffmanTree) : Bool :=
  t1.cmp t2 == .lt

/-- Decidable equality for `Except` results, so that concrete runs of the
embedded functions can be checked by `decide`. -/
instance {ε α : Type} [DecidableEq ε] [DecidableEq α] :
    DecidableEq (Except ε α) := fun a b =>
  match a, b with
  | .error e1, .error e2 =>
    if h : e1 = e2 then isTrue (by rw [h])
    else isFalse (fun hh => h (by cases hh; rfl))
  | .error _, .ok _ => isFalse (fun hh => Except.noConfusion hh)
  | .ok _, .error _ => isFalse (fun hh => Except.noConfusion hh)
  | .ok a1, .ok a2 =>
    if h : a1 = a2 then isTrue (by rw [h])
    else isFalse (fun hh => h (by cases hh; rfl))

/-- All ways of inserting `x` at one position of a list (an executable
permutation enumerator used to check a property on every iteration order of
a small frequency table). -/
def insertionsL (x : α) : List α → List (List α)
  | [] => [[x]]
  | y :: ys => (x :: y :: ys) :: (insertionsL x ys).map (y :: ·)

/-- All permutations of a list, by structural recursion (so that concrete
instances evaluate inside the kernel). -/
def permsL : List α → List (List α)
  | [] => [[]]
  | x :: xs => (permsL xs).flatMap (insertionsL x)

/-- The frequency table of the spec's Example 1 (in the insertion order of
the repository's `test_build_tree`). -/
def exampleFreqs : List (Char × Int) := [('a', 4), ('b', 2), ('c', 1), ('d', 5)]

/-- The tree Example 1 must produce: the root (weight 12) has the leaf `d`
(count 5) as left child and an internal node (weight 7) as right child. -/
def exampleTree : Node :=
  .internal (.leaf 'd' 5)
    (.internal (.internal (.leaf 'c' 1) (.leaf 'b' 2) 3) (.leaf 'a' 4) 7) 12

/-- The `HuffmanCode` struct of `huffman_tree.rs`: it holds only the
symbol-to-code encoding table.  (`Vec<u8>` buffers are `List Nat`,
`String` is `List Char`.) -/
structure HuffmanCode where
  encoding_table : List (Char × List Bool)
deriving DecidableEq, Repr

/-- `HuffmanCode::new`. -/
def HuffmanCode.new (encoding_table : List (Char × List Bool)) : HuffmanCode :=
  ⟨encoding_table⟩

/-- `HuffmanCode::encode`, exactly as written in the source: an
unimplemented placeholder that ignores the table and the input text and
returns the empty bit vector (the body is just `Vec::new()`). -/
def HuffmanCode.encode (_self : HuffmanCode) (_data : List Char) : List Bool :=
  []

/-- `HuffmanCode::decode`, exactly as written in the source: an
unimplemented placeholder that ignores the bit stream and returns the
empty string (the body is just `String::new()`). -/
def HuffmanCode.decode (_self : HuffmanCode) (_data : List Bool) : List Char :=
  []

/-- `HuffmanCode::serialize`, exactly as written in the source: an
unimplemented placeholder returning the empty byte buffer (the body is
just `Vec::new()`). -/
def HuffmanCode.serialize (_self : HuffmanCode) : List Nat :=
  []

/-- `HuffmanCode::deserialize`, exactly as written in the source: an
unimplemented placeholder returning a `HuffmanCode` whose encoding table
is empty (`HashMap::new()`). -/
def HuffmanCode.deserialize (_data : List Nat) : HuffmanCode :=
  ⟨[]⟩

lemma self_mem_insertionsL (x : α) (l : List α) : x :: l ∈ insertionsL x l := by
  cases l <;> simp [insertionsL]

lemma mem_insertionsL [DecidableEq α] {x : α} :
    ∀ {l : List α}, x ∈ l → l ∈ insertionsL x (l.erase x)
  | [], h => absurd h (List.not_mem_nil x)
  | y :: ys, h => by
    by_cases hxy : x = y
    · subst hxy
      rw [List.erase_cons_head]
      exact self_mem_insertionsL x ys
    · have hx : x ∈ ys := (List.mem_cons.1 h).resolve_left hxy
      have : (y :: ys).erase x = y :: ys.erase x := by
        rw [List.erase_cons_tail]
        simp [hxy, Ne.symm hxy, beq_iff_eq]
      rw [this]
      simp only [insertionsL, List.mem_cons, List.mem_map]
      exact Or.inr ⟨ys, mem_insertionsL hx, rfl⟩

/-- Completeness of the enumerator: every permutation of `l₂` occurs in
`permsL l₂`. -/
lemma mem_permsL [DecidableEq α] :
    ∀ {l₂ l₁ : List α}, List.Perm l₁ l₂ → l₁ ∈ permsL l₂
  | [], l₁, h => by
    rw [List.perm_nil.1 h]; simp [permsL]
  | x :: t, l₁, h => by
    have hx : x ∈ l₁ := h.mem_iff.2 (List.mem_cons_self x t)
    have h2 : List.Perm (l₁.erase x) t := by
      have := h.erase x
      rwa [List.erase_cons_head] at this
    simp only [permsL, List.mem_flatMap]
    exact ⟨l₁.erase x, mem_permsL h2, mem_insertionsL hx⟩

lemma build_tree_example_all_orders :
    ∀ l ∈ permsL exampleFreqs, build_tree l = .ok ⟨exampleTree⟩ := by
  decide

/-- C9: for every iteration order of the frequency table
{a:4, b:2, c:1, d:5}, `build_tree` returns the weight-12 tree whose root
has the leaf `d` (count 5) as one child and an internal node as the other,
and `build_encoding_table` yields exactly d → [0], a → [1,1], b → [1,0,1],
c → [1,0,0] (here 0 = `false`, 1 = `true`). -/
theorem build_tree_example (l : List (Char × Int)) (h : List.Perm l exampleFreqs) :
    build_tree l = .ok ⟨exampleTree⟩ ∧
    Node.weight exampleTree = 12 ∧
    build_encoding_table ⟨exampleTree⟩ =
      [('d', [false]), ('c', [true, false, false]),
       ('b', [true, false, true]), ('a', [true, true])] :=
  ⟨build_tree_example_all_orders l (mem_permsL h), rfl, rfl⟩

/-- Witness for C9 at the concrete insertion order of the repository's own
test. -/
theorem build_tree_example_witness :
    build_tree exampleFreqs = .ok ⟨exampleTree⟩ ∧
    Node.weight exampleTree = 12 ∧
    build_encoding_table ⟨exampleTree⟩ =
      [('d', [false]), ('c', [true, false, false]),
       ('b', [true, false, true]), ('a', [true, true])] :=
  build_tree_example exampleFreqs (List.Perm.refl _)

/-- C4 (counterexample): called on the empty frequency mapping,
`build_tree` fails by panicking with the message "Heap should not be
empty"; it does not produce the spec's `EmptyAlphabet` error value (no such
error exists anywhere in the code). -/
theorem build_tree_empty_not_emptyAlphabet :
    build_tree [] = .error (.panicked "Heap should not be empty") ∧
    build_tree [] ≠ .error .emptyAlphabet := by
  exact ⟨rfl, by decide⟩

/-- C4 (amended): when `build_tree` is called with an empty frequency
mapping, it fails — by panicking with "Heap should not be empty" — rather
than silently defaulting or succeeding; the failure is a panic, not an
`EmptyAlphabet` error value. -/
theorem build_tree_empty_fails :
    build_tree [] = .error (.panicked "Heap should not be empty") := rfl

/-- C5 (counterexample): two entry sequences holding exactly the same
frequency entries (a permutation — two possible iteration orders of one
`HashMap` content, which Rust's randomized hashing can produce across runs
even for identical insertion order) yield different encoding tables when
queued nodes tie on the minimum weight: with entries {a:1, b:1}, iteration
order a,b maps 'a' to [0], while iteration order b,a maps 'a' to [1]. -/
theorem build_encoding_table_order_sensitive :
    List.Perm [(('a' : Char), (1 : Int)), ('b', 1)] [('b', 1), ('a', 1)] ∧
    (build_tree [('a', 1), ('b', 1)]).map build_encoding_table
      = .ok [('a', [false]), ('b', [true])] ∧
    (build_tree [('b', 1), ('a', 1)]).map build_encoding_table
      = .ok [('b', [false]), ('a', [true])] ∧
    (build_tree [('a', 1), ('b', 1)]).map build_encoding_table
      ≠ (build_tree [('b', 1), ('a', 1)]).map build_encoding_table :=
  ⟨List.Perm.swap _ _ _, rfl, rfl, by decide⟩

/-- C5 (amended): the encoding table is a deterministic function of the
*iteration sequence* the frequency `HashMap` hands to `build_tree`'s `for`
loop: identical sequences always rebuild the identical table.  (It is not a
function of the entry set alone: with tied minimum weights, different
iteration orders of the same entries give different tables, and `HashMap`
iteration order is not reproducible across runs.) -/
theorem build_encoding_table_deterministic (l1 l2 : List (Char × Int))
    (h : l1 = l2) :
    (build_tree l1).map build_encoding_table
      = (build_tree l2).map build_encoding_table := by
  rw [h]

/-- Witness for the amended C5 at a concrete iteration sequence. -/
theorem build_encoding_table_deterministic_witness :
    (build_tree [('a', 1), ('b', 1)]).map build_encoding_table
      = (build_tree [('a', 1), ('b', 1)]).map build_encoding_table :=
  build_encoding_table_deterministic _ _ rfl

/-- C8: on a frequency table with exactly one entry, `build_tree` returns
the single leaf carrying that symbol and its count (no internal node), and
the encoding table maps the symbol to the empty bit sequence. -/
theorem build_tree_single_symbol (c : Char) (n : Int) :
    build_tree [(c, n)] = .ok ⟨.leaf c n⟩ ∧
    build_encoding_table ⟨.leaf c n⟩ = [(c, [])] :=
  ⟨rfl, rfl⟩

/-- Witness for C8 at the spec's Example 2 alphabet {x: 7}. -/
theorem build_tree_single_symbol_witness :
    build_tree [('x', 7)] = .ok ⟨.leaf 'x' 7⟩ ∧
    build_encoding_table ⟨.leaf 'x' 7⟩ = [('x', [])] :=
  build_tree_single_symbol 'x' 7

/-- C10: `PartialEq` and `Ord` on `HuffmanTree` look only at the root
weight: two trees are equal exactly when their weights are equal and
strictly ordered exactly as their weights are; in particular structurally
different trees of equal weight (different symbols, or even a leaf versus
an internal node) compare as equal. -/
theorem huffman_tree_ord_by_weight :
    (∀ t1 t2 : HuffmanTree, t1.eq t2 = true ↔ t1.weight = t2.weight) ∧
    (∀ t1 t2 : HuffmanTree, t1.lt t2 = true ↔ t1.weight < t2.weight) ∧
    (new_leaf 'a' 3).eq (new_leaf 'x' 3) = true ∧
    new_leaf 'a' 3 ≠ new_leaf 'x' 3 ∧
    (HuffmanTree.mk (.internal (.leaf 'a' 1) (.leaf 'b' 2) 3)).eq
      (new_leaf 'c' 3) = true ∧
    HuffmanTree.mk (.internal (.leaf 'a' 1) (.leaf 'b' 2) 3) ≠ new_leaf 'c' 3 := by
  refine ⟨fun t1 t2 => ?_, fun t1 t2 => ?_, rfl, by decide, rfl, by decide⟩
  · simp [HuffmanTree.eq]
  · constructor
    · intro hb
      have hcmp : compare t1.weight t2.weight = Ordering.lt := by
        unfold HuffmanTree.lt HuffmanTree.cmp at hb
        cases h : compare t1.weight t2.weight <;> rw [h] at hb
        · exact absurd hb (by decide)
        · exact absurd hb (by decide)
      exact compare_lt_iff_lt.1 hcmp
    · intro hlt
      unfold HuffmanTree.lt HuffmanTree.cmp
      rw [compare_lt_iff_lt.2 hlt]
      rfl

lemma lswap_length (l : List Node) (i j : Nat) :
    (lswap l i j).length = l.length := by
  simp [lswap]

lemma set_cons_perm :
    ∀ (l : List Node) (i : Nat) (a : Node), i < l.length →
      List.Perm (l.getD i dNode :: l.set i a) (a :: l)
  | [], i, _, h => absurd h (Nat.not_lt_zero i)
  | x :: xs, 0, a, _ => List.Perm.swap a x xs
  | x :: xs, i+1, a, h => by
    have hi : i < xs.length := by simpa using h
    exact (List.Perm.swap x (xs.getD i dNode) (xs.set i a)).trans
      (((set_cons_perm xs i a hi).cons x).trans (List.Perm.swap a x xs))

lemma lswap_perm (l : List Node) (i j : Nat) (hi : i < l.length)
    (hj : j < l.length) (hij : i ≠ j) : List.Perm (lswap l i j) l := by
  have h1 := set_cons_perm l i (l.getD j dNode) hi
  have hj' : j < (l.set i (l.getD j dNode)).length := by simpa using hj
  have h2 := set_cons_perm (l.set i (l.getD j dNode)) j (l.getD i dNode) hj'
  have hA : (l.set i (l.getD j dNode)).getD j dNode = l.getD j dNode := by
    rw [List.getD_eq_getElem?_getD, List.getD_eq_getElem?_getD,
      List.getElem?_set_ne hij]
  rw [hA] at h2
  exact (h2.trans h1).cons_inv

lemma sift_up_perm : ∀ (fuel : Nat) (l : List Node) (pos : Nat), pos < l.length →
    List.Perm (sift_up fuel l pos) l := by
  intro fuel
  induction fuel with
  | zero => intro l pos _; exact List.Perm.refl l
  | succ f ih =>
    intro l pos h
    simp only [sift_up]
    split
    · split
      · rename_i h0 _
        have h1 : (pos - 1) / 2 < (lswap l pos ((pos - 1) / 2)).length := by
          rw [lswap_length]; omega
        exact (ih _ _ h1).trans
          (lswap_perm l pos ((pos - 1) / 2) h (by omega) (by omega))
      · exact List.Perm.refl l
    · exact List.Perm.refl l

lemma sift_down_loop_spec :
    ∀ (fuel : Nat) (l : List Node) (pos : Nat), pos < l.length →
      List.Perm (sift_down_loop fuel l pos).1 l ∧
        (sift_down_loop fuel l pos).2 < (sift_down_loop fuel l pos).1.length := by
  intro fuel
  induction fuel with
  | zero => intro l pos h; exact ⟨List.Perm.refl l, h⟩
  | succ f ih =>
    intro l pos h
    simp only [sift_down_loop]
    split
    · rename_i hc
      by_cases hw : (l.getD (2 * pos + 1 + 1) dNode).weight
          ≤ (l.getD (2 * pos + 1) dNode).weight
      · rw [if_pos hw]
        have hlen : 2 * pos + 1 + 1 < (lswap l pos (2 * pos + 1 + 1)).length := by
          rw [lswap_length]; omega
        obtain ⟨hp, hb⟩ := ih (lswap l pos (2 * pos + 1 + 1)) (2 * pos + 1 + 1) hlen
        exact ⟨hp.trans (lswap_perm l pos (2 * pos + 1 + 1) h (by omega) (by omega)), hb⟩
      · rw [if_neg hw]
        have hlen : 2 * pos + 1 < (lswap l pos (2 * pos + 1)).length := by
          rw [lswap_length]; omega
        obtain ⟨hp, hb⟩ := ih (lswap l pos (2 * pos + 1)) (2 * pos + 1) hlen
        exact ⟨hp.trans (lswap_perm l pos (2 * pos + 1) h (by omega) (by omega)), hb⟩
    · split
      · rename_i hc1 hc2
        constructor
        · exact lswap_perm l pos (2 * pos + 1) h (by omega) (by omega)
        · show 2 * pos + 1 < (lswap l pos (2 * pos + 1)).length
          rw [lswap_length]; omega
      · exact ⟨List.Perm.refl l, h⟩

lemma sift_down_to_bottom_perm (l : List Node) (h : 0 < l.length) :
    List.Perm (sift_down_to_bottom l) l := by
  obtain ⟨hp, hb⟩ := sift_down_loop_spec l.length l 0 h
  simp only [sift_down_to_bottom]
  exact (sift_up_perm _ _ _ hb).trans hp

lemma push_perm (l : List Node) (x : Node) : List.Perm (push l x) (x :: l) := by
  have h := sift_up_perm l.length (l ++ [x]) l.length (by simp)
  exact h.trans (List.perm_append_singleton x l)

lemma pop_none_iff (l : List Node) : pop l = none ↔ l = [] := by
  cases l with
  | nil => simp [pop]
  | cons x xs =>
    cases xs with
    | nil => simp [pop]
    | cons y ys => simp [pop]

lemma pop_cons_cons (x y : Node) (ys : List Node) :
    pop (x :: y :: ys) = some (x, sift_down_to_bottom
      ((y :: ys).getLast (List.cons_ne_nil y ys) :: (y :: ys).dropLast)) := rfl

lemma pop_perm : ∀ {l : List Node} {x : Node} {l' : List Node},
    pop l = some (x, l') → List.Perm l (x :: l') := by
  intro l x l' h
  match l with
  | [] => exact absurd h (by simp [pop])
  | [z] =>
    have hz : pop [z] = some (z, []) := rfl
    rw [hz] at h
    injection h with h1
    injection h1 with h2 h3
    subst h2
    subst h3
    exact List.Perm.refl [z]
  | z :: w :: ws =>
    rw [pop_cons_cons] at h
    injection h with h1
    injection h1 with h2 h3
    subst h2
    subst h3
    have h1p : List.Perm
        (sift_down_to_bottom
          ((w :: ws).getLast (List.cons_ne_nil w ws) :: (w :: ws).dropLast))
        ((w :: ws).getLast (List.cons_ne_nil w ws) :: (w :: ws).dropLast) :=
      sift_down_to_bottom_perm _ (by simp)
    have h2p : List.Perm (w :: ws)
        ((w :: ws).getLast (List.cons_ne_nil w ws) :: (w :: ws).dropLast) := by
      conv_lhs => rw [← List.dropLast_append_getLast (List.cons_ne_nil w ws)]
      exact List.perm_append_singleton _ _
    exact (h2p.trans h1p.symm).cons z

lemma pop_length {l : List Node} {x : Node} {l' : List Node}
    (h : pop l = some (x, l')) : l.length = l'.length + 1 := by
  simpa using (pop_perm h).length_eq

lemma build_loop_singleton (f : Nat) (x : Node) : build_loop f [x] = .ok [x] := by
  cases f <;> rfl

/-- Everything `build_tree`'s loop preserves, in one induction: a
successful run keeps the total weight and the multiset of leaf symbols of
the heap, preserves the recursive weight invariant of every queued tree,
compacts a non-empty heap to exactly one tree, and — when the heap started
with at least two trees — ends on an internal node. -/
lemma build_loop_spec : ∀ (fuel : Nat) (l : List Node), l.length ≤ fuel + 1 →
    ∃ l', build_loop fuel l = .ok l' ∧
      (l'.map Node.weight).sum = (l.map Node.weight).sum ∧
      List.Perm (l'.flatMap leaves) (l.flatMap leaves) ∧
      ((∀ n ∈ l, wf_node n = true) → ∀ n ∈ l', wf_node n = true) ∧
      (1 ≤ l.length → l'.length = 1) ∧
      (2 ≤ l.length → ∃ a b w, l' = [Node.internal a b w]) := by
  intro fuel
  induction fuel with
  | zero =>
    intro l hlen
    refine ⟨l, rfl, rfl, List.Perm.refl _, fun h => h, fun _ => by omega, fun h2 => by omega⟩
  | succ f ih =>
    intro l hlen
    by_cases hbig : 1 < l.length
    · cases hp1 : pop l with
      | none =>
        rw [pop_none_iff] at hp1
        rw [hp1] at hbig
        exact absurd hbig (by simp)
      | some p1 =>
        obtain ⟨a, l1⟩ := p1
        cases hp2 : pop l1 with
        | none =>
          rw [pop_none_iff] at hp2
          have hl1 := pop_length hp1
          rw [hp2] at hl1
          simp at hl1
          omega
        | some p2 =>
          obtain ⟨b, l2⟩ := p2
          have hperm1 := pop_perm hp1
          have hperm2 := pop_perm hp2
          have hlen1 := pop_length hp1
          have hlen2 := pop_length hp2
          have hpushperm := push_perm l2 (new_internal a b).root
          have hpushlen : (push l2 (new_internal a b).root).length = l2.length + 1 := by
            rw [hpushperm.length_eq]; rfl
          obtain ⟨l', hl', hsum, hleaves, hwf, hone, -⟩ :=
            ih (push l2 (new_internal a b).root) (by omega)
          have hunfold : build_loop (f + 1) l
              = build_loop f (push l2 (new_internal a b).root) := by
            simp only [build_loop, if_pos hbig, hp1, hp2]
          refine ⟨l', by rw [hunfold]; exact hl', ?_, ?_, ?_, ?_, ?_⟩
          · -- total weight preserved
            have e1 : (l.map Node.weight).sum = ((a :: l1).map Node.weight).sum :=
              (hperm1.map Node.weight).sum_eq
            have e2 : (l1.map Node.weight).sum = ((b :: l2).map Node.weight).sum :=
              (hperm2.map Node.weight).sum_eq
            have e3 : ((push l2 (new_internal a b).root).map Node.weight).sum
                = (((new_internal a b).root :: l2).map Node.weight).sum :=
              (hpushperm.map Node.weight).sum_eq
            have e4 : Node.weight (new_internal a b).root
                = Node.weight a + Node.weight b := rfl
            simp only [List.map_cons, List.sum_cons] at e1 e2 e3
            rw [hsum, e3, e4, e1, e2]
            ring
          · -- leaf symbols preserved (as a permutation)
            have e1 : List.Perm (l.flatMap leaves) (leaves a ++ l1.flatMap leaves) :=
              hperm1.flatMap_right leaves
            have e2 : List.Perm (l1.flatMap leaves) (leaves b ++ l2.flatMap leaves) :=
              hperm2.flatMap_right leaves
            have e3 : List.Perm ((push l2 (new_internal a b).root).flatMap leaves)
                ((leaves a ++ leaves b) ++ l2.flatMap leaves) :=
              hpushperm.flatMap_right leaves
            refine (hleaves.trans e3).trans ?_
            rw [List.append_assoc]
            exact ((e2.symm.append_left (leaves a)).trans e1.symm)
          · -- weight invariant preserved
            intro hall
            apply hwf
            intro m hm
            rcases List.mem_cons.1 (hpushperm.mem_iff.1 hm) with hmx | hml2
            · subst hmx
              have hwa : wf_node a = true :=
                hall a (hperm1.mem_iff.2 (List.mem_cons_self a l1))
              have hwb : wf_node b = true := by
                have hbl1 : b ∈ l1 := hperm2.mem_iff.2 (List.mem_cons_self b l2)
                exact hall b (hperm1.mem_iff.2 (List.mem_cons_of_mem a hbl1))
              simp [new_internal, wf_node, hwa, hwb]
            · have hml1 : m ∈ l1 := hperm2.mem_iff.2 (List.mem_cons_of_mem b hml2)
              exact hall m (hperm1.mem_iff.2 (List.mem_cons_of_mem a hml1))
          · intro _
            exact hone (by omega)
          · -- at least two inputs: the final tree is internal
            intro _
            cases hl2 : l2 with
            | nil =>
              have hsingle : build_loop f (push l2 (new_internal a b).root)
                  = .ok [(new_internal a b).root] := by
                rw [hl2]
                exact build_loop_singleton f _
              rw [hsingle] at hl'
              injection hl' with hl'e
              exact ⟨a, b, a.weight + b.weight, hl'e.symm⟩
            | cons z zs =>
              obtain ⟨l'', hl'', -, -, -, -, htwo''⟩ :=
                ih (push l2 (new_internal a b).root) (by omega)
              rw [hl''] at hl'
              injection hl' with hl'e
              obtain ⟨a', b', w', he⟩ := htwo'' (by rw [hpushlen, hl2]; simp)
              exact ⟨a', b', w', by rw [← hl'e, he]⟩
    · refine ⟨l, ?_, rfl, List.Perm.refl _, fun h => h, fun h1 => by omega, fun h2 => by omega⟩
      rw [build_loop, if_neg hbig]

lemma foldl_push_perm : ∀ (freqs : List (Char × Int)) (acc : List Node),
    List.Perm (List.foldl (fun h p => push h (new_leaf p.1 p.2).root) acc freqs)
      (acc ++ freqs.map (fun p => Node.leaf p.1 p.2)) := by
  intro freqs
  induction freqs with
  | nil => intro acc; simp
  | cons q qs ih =>
    intro acc
    have h1 := ih (push acc (Node.leaf q.1 q.2))
    have h2 : List.Perm
        (push acc (Node.leaf q.1 q.2) ++ qs.map (fun p => Node.leaf p.1 p.2))
        ((Node.leaf q.1 q.2 :: acc) ++ qs.map (fun p => Node.leaf p.1 p.2)) :=
      (push_perm acc (Node.leaf q.1 q.2)).append_right _
    have h3 : List.Perm
        ((Node.leaf q.1 q.2 :: acc) ++ qs.map (fun p => Node.leaf p.1 p.2))
        (acc ++ (q :: qs).map (fun p => Node.leaf p.1 p.2)) := by
      rw [List.map_cons]
      exact List.perm_middle.symm
    exact h1.trans (h2.trans h3)

lemma flatMap_leaves_of_leaf_map (freqs : List (Char × Int)) :
    (freqs.map (fun p => Node.leaf p.1 p.2)).flatMap leaves = freqs.map Prod.fst := by
  induction freqs with
  | nil => rfl
  | cons q qs ih => simp [leaves, ih]

/-- The facts `build_tree` guarantees about a successfully built tree: the
root weight is the sum of all input counts, the cached weights are
internally consistent, the leaf symbols are exactly the input symbols (as a
permutation), and with at least two entries the root is an internal
node. -/
lemma build_tree_ok (freqs : List (Char × Int)) (t : HuffmanTree)
    (h : build_tree freqs = .ok t) :
    HuffmanTree.weight t = (freqs.map (fun p => p.2)).sum ∧
    wf_node t.root = true ∧
    List.Perm (leaves t.root) (freqs.map Prod.fst) ∧
    (2 ≤ freqs.length → ∃ a b w, t.root = Node.internal a b w) := by
  simp only [build_tree] at h
  set heap0 := freqs.foldl (fun h p => push h (new_leaf p.1 p.2).root) [] with hheap
  have hperm0 : List.Perm heap0 (freqs.map (fun p => Node.leaf p.1 p.2)) := by
    have := foldl_push_perm freqs []
    simpa [hheap] using this
  have hlen0 : heap0.length = freqs.length := by
    rw [hperm0.length_eq, List.length_map]
  obtain ⟨l', hloop, hsum, hleaves, hwf, hone, htwo⟩ :=
    build_loop_spec heap0.length heap0 (by omega)
  rw [hloop] at h
  by_cases hf : freqs = []
  · exfalso
    rw [hf] at hlen0
    simp at hlen0
    have hnil : heap0 = [] := hlen0
    rw [hnil] at hloop
    have hbl : build_loop (0 : Nat) ([] : List Node) = .ok ([] : List Node) := rfl
    rw [List.length_nil] at hloop
    rw [hbl] at hloop
    injection hloop with he
    rw [← he] at h
    exact Except.noConfusion h
  · have hge1 : 1 ≤ heap0.length := by
      rw [hlen0]
      exact List.length_pos.2 hf
    obtain ⟨t0, ht0⟩ := List.length_eq_one.1 (hone hge1)
    have h2 : (match pop l' with
        | some (tt, _) => Except.ok (⟨tt⟩ : HuffmanTree)
        | none => Except.error (HuffFailure.panicked "Heap should not be empty"))
        = Except.ok t := h
    have hpop1 : pop [t0] = some (t0, []) := rfl
    rw [ht0, hpop1] at h2
    have h3 : Except.ok (⟨t0⟩ : HuffmanTree) = Except.ok t := h2
    injection h3 with he
    have htt0 : t = ⟨t0⟩ := he.symm
    subst htt0
    have hleafwf : ∀ n ∈ heap0, wf_node n = true := by
      intro n hn
      rcases List.mem_map.1 (hperm0.mem_iff.1 hn) with ⟨p, -, hp⟩
      rw [← hp]
      rfl
    refine ⟨?_, ?_, ?_, ?_⟩
    · have e0 : ((heap0.map Node.weight).sum) = (freqs.map (fun p => p.2)).sum := by
        rw [(hperm0.map Node.weight).sum_eq, List.map_map]
        rfl
      rw [ht0] at hsum
      simp only [List.map_cons, List.map_nil, List.sum_cons, List.sum_nil, add_zero] at hsum
      rw [HuffmanTree.weight, hsum, e0]
    · exact hwf hleafwf t0 (by rw [ht0]; exact List.mem_cons_self t0 [])
    · have e1 : List.Perm (heap0.flatMap leaves) (freqs.map Prod.fst) := by
        have := hperm0.flatMap_right leaves
        rw [flatMap_leaves_of_leaf_map] at this
        exact this
      have e2 : (([t0] : List Node).flatMap leaves) = leaves t0 := by simp
      rw [ht0] at hleaves
      rw [e2] at hleaves
      exact hleaves.trans e1
    · intro h2
      obtain ⟨a, b, w, hab⟩ := htwo (by omega)
      rw [ht0] at hab
      injection hab with hab1
      exact ⟨a, b, w, hab1⟩

/-- C6: for every tree `build_tree` returns, the root weight equals the sum
of all input frequency counts, and every internal node's cached weight
equals the sum of its two children's weights (checked recursively over the
whole tree by `wf_node`). -/
theorem build_tree_weight_invariant (freqs : List (Char × Int)) (t : HuffmanTree)
    (h : build_tree freqs = .ok t) :
    HuffmanTree.weight t = (freqs.map (fun p => p.2)).sum ∧ wf_node t.root = true :=
  ⟨(build_tree_ok freqs t h).1, (build_tree_ok freqs t h).2.1⟩

/-- Witness for C6 at the Example 1 table. -/
theorem build_tree_weight_invariant_witness :
    HuffmanTree.weight ⟨exampleTree⟩ = (exampleFreqs.map (fun p => p.2)).sum ∧
    wf_node exampleTree = true :=
  build_tree_weight_invariant exampleFreqs ⟨exampleTree⟩ (by decide)

lemma walk_keys : ∀ (n : Node) (path : List Bool),
    (walk_through_tree n path).map Prod.fst = leaves n := by
  intro n
  induction n with
  | leaf v c => intro path; rfl
  | internal a b w iha ihb =>
    intro path
    simp only [walk_through_tree, List.map_append, iha, ihb, leaves]

lemma walk_path_extends : ∀ (n : Node) (path : List Bool) (e : Char × List Bool),
    e ∈ walk_through_tree n path → ∃ suf, e.2 = path ++ suf := by
  intro n
  induction n with
  | leaf v c =>
    intro path e he
    simp only [walk_through_tree, List.mem_singleton] at he
    subst he
    exact ⟨[], by simp⟩
  | internal a b w iha ihb =>
    intro path e he
    rw [walk_through_tree] at he
    rcases List.mem_append.1 he with hL | hR
    · obtain ⟨s, hs⟩ := iha (path ++ [false]) e hL
      refine ⟨false :: s, ?_⟩
      rw [hs, List.append_assoc]
      rfl
    · obtain ⟨s, hs⟩ := ihb (path ++ [true]) e hR
      refine ⟨true :: s, ?_⟩
      rw [hs, List.append_assoc]
      rfl

lemma walk_pairwise : ∀ (n : Node) (path : List Bool),
    (walk_through_tree n path).Pairwise
      (fun e1 e2 => ¬ (e1.2 <+: e2.2) ∧ ¬ (e2.2 <+: e1.2)) := by
  intro n
  induction n with
  | leaf v c => intro path; simp [walk_through_tree]
  | internal a b w iha ihb =>
    intro path
    rw [walk_through_tree, List.pairwise_append]
    refine ⟨iha _, ihb _, ?_⟩
    intro e1 h1 e2 h2
    obtain ⟨s1, hs1⟩ := walk_path_extends a (path ++ [false]) e1 h1
    obtain ⟨s2, hs2⟩ := walk_path_extends b (path ++ [true]) e2 h2
    have h1e : e1.2 = path ++ (false :: s1) := by rw [hs1, List.append_assoc]; rfl
    have h2e : e2.2 = path ++ (true :: s2) := by rw [hs2, List.append_assoc]; rfl
    constructor
    · rw [h1e, h2e]
      intro hpre
      have hp2 := (List.prefix_append_right_inj path).1 hpre
      exact Bool.noConfusion (List.cons_prefix_cons.1 hp2).1
    · rw [h1e, h2e]
      intro hpre
      have hp2 := (List.prefix_append_right_inj path).1 hpre
      exact Bool.noConfusion (List.cons_prefix_cons.1 hp2).1

/-- C7: for a tree built from a frequency table with distinct symbols, the
encoding table has exactly one entry per distinct leaf symbol (its keys are
exactly the tree's leaf symbols, a permutation of the input symbols, with
no duplicates), and for any two entries with distinct symbols neither code
is a prefix of the other. -/
theorem encoding_table_prefix_free (freqs : List (Char × Int)) (t : HuffmanTree)
    (hnd : (freqs.map Prod.fst).Nodup) (h : build_tree freqs = .ok t) :
    (build_encoding_table t).map Prod.fst = leaves t.root ∧
    List.Perm ((build_encoding_table t).map Prod.fst) (freqs.map Prod.fst) ∧
    ((build_encoding_table t).map Prod.fst).Nodup ∧
    ∀ e1 ∈ build_encoding_table t, ∀ e2 ∈ build_encoding_table t,
      e1.1 ≠ e2.1 → ¬ (e1.2 <+: e2.2) := by
  obtain ⟨-, -, hleafperm, -⟩ := build_tree_ok freqs t h
  have hkeys : (build_encoding_table t).map Prod.fst = leaves t.root :=
    walk_keys t.root []
  refine ⟨hkeys, ?_, ?_, ?_⟩
  · rw [hkeys]; exact hleafperm
  · rw [hkeys]; exact hleafperm.nodup_iff.2 hnd
  · have hpw := walk_pairwise t.root []
    have hsymm : Symmetric (fun (e1 e2 : Char × List Bool) =>
        ¬ (e1.2 <+: e2.2) ∧ ¬ (e2.2 <+: e1.2)) := fun e1 e2 hp => ⟨hp.2, hp.1⟩
    intro e1 h1 e2 h2 hne
    have hne2 : e1 ≠ e2 := fun he => hne (by rw [he])
    exact (hpw.forall hsymm h1 h2 hne2).1

/-- Witness for C7 at the Example 1 table. -/
theorem encoding_table_prefix_free_witness :
    (build_encoding_table ⟨exampleTree⟩).map Prod.fst = leaves exampleTree ∧
    List.Perm ((build_encoding_table ⟨exampleTree⟩).map Prod.fst)
      (exampleFreqs.map Prod.fst) ∧
    ((build_encoding_table ⟨exampleTree⟩).map Prod.fst).Nodup ∧
    ∀ e1 ∈ build_encoding_table ⟨exampleTree⟩,
      ∀ e2 ∈ build_encoding_table ⟨exampleTree⟩,
        e1.1 ≠ e2.1 → ¬ (e1.2 <+: e2.2) :=
  encoding_table_prefix_free exampleFreqs ⟨exampleTree⟩ (by decide) (by decide)

/-- C1: the code violates the claim — `HuffmanCode::encode` and
`HuffmanCode::decode` are unimplemented placeholders, so decoding the
encoding of any non-empty text yields the empty text, never the text
itself.  Evaluated at the two-symbol table {a:1, b:1}, whose tree and
encoding table the source really builds, with the text "a": encode
returns no bits, decode returns the empty text, and the round trip loses
"a". -/
theorem decode_encode_stub_fails :
    build_tree [('a', 1), ('b', 1)]
      = .ok ⟨.internal (.leaf 'a' 1) (.leaf 'b' 1) 2⟩ ∧
    build_encoding_table ⟨.internal (.leaf 'a' 1) (.leaf 'b' 1) 2⟩
      = [('a', [false]), ('b', [true])] ∧
    (HuffmanCode.new [('a', [false]), ('b', [true])]).encode ['a'] = [] ∧
    (HuffmanCode.new [('a', [false]), ('b', [true])]).decode
      ((HuffmanCode.new [('a', [false]), ('b', [true])]).encode ['a']) = [] ∧
    ([] : List Char) ≠ ['a'] :=
  ⟨rfl, rfl, rfl, rfl, by decide⟩

/-- C2: the code violates the claim — `HuffmanCode::encode` returns the
empty bit vector for every table and text instead of the concatenation of
the per-symbol codes: at the table {a → [0]} and the text "a" it returns
[], not [0]. -/
theorem encode_stub_returns_empty :
    (HuffmanCode.new [('a', [false])]).encode ['a'] = [] ∧
    (HuffmanCode.new [('a', [false])]).encode ['a'] ≠ [false] :=
  ⟨rfl, by decide⟩

/-- C3: the code violates the claim — `HuffmanCode::serialize` returns the
empty buffer for every tree and `HuffmanCode::deserialize` rebuilds a
`HuffmanCode` whose table is empty (no tree at all is reconstructed), so
the round trip preserves neither shape nor symbol-to-leaf assignment: for
the Example 1 tree the original table has four entries and the
deserialized result has none. -/
theorem deserialize_serialize_stub_fails :
    (HuffmanCode.new (build_encoding_table ⟨exampleTree⟩)).serialize = [] ∧
    HuffmanCode.deserialize
        ((HuffmanCode.new (build_encoding_table ⟨exampleTree⟩)).serialize)
      = HuffmanCode.new [] ∧
    (build_encoding_table ⟨exampleTree⟩).length = 4 ∧
    (HuffmanCode.deserialize
        ((HuffmanCode.new (build_encoding_table ⟨exampleTree⟩)).serialize)).encoding_table
      ≠ build_encoding_table ⟨exampleTree⟩ :=
  ⟨rfl, rfl, rfl, by decide⟩

end Huffman
